import Mathlib

/-!
Verification of the ObjC header-reconstruction core of `internal/commands/macho/objc.go`.

The Go code is shallowly embedded below.  Strings are modelled at the character
level via `String.data` (the data handled by the program is ASCII identifier
material, where Go's byte-wise operations and character-wise operations agree).
External collaborators (the Mach-O parser, the shared-cache image loader, the
demangler) are modelled as data already handed to the core: descriptor records
carry the fields the core reads, and each descriptor's `Verbose()` dump is an
opaque per-descriptor string field.
-/

/-- Character-level lexicographic comparison of char lists, by code point.
Models Go's byte-wise string comparison `cmp.Compare` / `<` used by
`slices.Sort` and `slices.SortStableFunc` (byte order and code-point order
agree on valid UTF-8). -/
def lexLe : List Char → List Char → Bool
  | [], _ => true
  | _ :: _, [] => false
  | a :: as, b :: bs =>
    if a.toNat < b.toNat then true
    else if b.toNat < a.toNat then false
    else lexLe as bs

/-- String comparison used for all sorting in the embedding. -/
def strLe (a b : String) : Bool := lexLe a.data b.data

/-- The sort relation on strings, as a `Prop` for `List.insertionSort`. -/
def strLeRel (a b : String) : Prop := strLe a b = true

instance : DecidableRel strLeRel :=
  fun a b => inferInstanceAs (Decidable (strLe a b = true))

/-- Models `strings.HasPrefix`. -/
def strHasPre (p s : String) : Bool := p.data.isPrefixOf s.data

/-- Models `strings.HasSuffix`. -/
def strHasSuf (suf s : String) : Bool := suf.data.isSuffixOf s.data

/-- Drop the first `n` characters (used for `strings.CutPrefix` /
`strings.TrimPrefix` after a successful prefix test). -/
def strDropN (n : Nat) (s : String) : String := String.mk (s.data.drop n)

/-- Models `strings.TrimSuffix`: removes one trailing copy of `suf` if present. -/
def dropSufOnce (suf s : String) : String :=
  if strHasSuf suf s then String.mk (s.data.take (s.data.length - suf.data.length)) else s

/-- Models `strings.Trim`: removes leading and trailing characters belonging to
the cutset `cut`. -/
def trimSet (cut s : String) : String :=
  String.mk (((s.data.dropWhile (cut.data.contains ·)).reverse.dropWhile
    (cut.data.contains ·)).reverse)

/-- Models `strings.ContainsAny(typ, "<>")`. -/
def containsAngle (s : String) : Bool := s.data.any (fun c => c = '<' || c = '>')

/-- Models `strings.ToLower(in[:1]) + in[1:]` (character-level; the Go code
slices the first byte, which agrees for ASCII selector names). -/
def lowerFirst (s : String) : String :=
  match s.data with
  | [] => ""
  | c :: cs => String.mk (c.toLower :: cs)

/-- Models `transformSetter` (objc.go:871-880). -/
def transformSetter (s : String) : String :=
  if strHasPre "set" s then
    let t := dropSufOnce ":" (strDropN 3 s)
    if t.data.length > 0 then lowerFirst t else ""
  else s

/-- Models `strings.TrimPrefix(name, "_")`. -/
def trimUnderscore (s : String) : String :=
  if strHasPre "_" s then strDropN 1 s else s

/-- Models `strings.ReplaceAll(s, "-", "_")`. -/
def replaceDash (s : String) : String :=
  String.mk (s.data.map (fun c => if c = '-' then '_' else c))

/-- Models `strings.Join`: the elements with `sep` between consecutive ones. -/
def strJoin (sep : String) : List String → String
  | [] => ""
  | [x] => x
  | x :: y :: xs => x ++ sep ++ strJoin sep (y :: xs)

/-- Models `slices.Sort` on a string slice.  Go's sort is an unstable
comparison sort, but on strings equal elements are identical, so the sorted
output is the unique sorted permutation produced by any sort. -/
def sortStrings (l : List String) : List String := List.insertionSort strLeRel l

/-- Models `slices.Compact`: collapses runs of consecutive equal elements to a
single element. -/
def compactStrings : List String → List String
  | [] => []
  | [a] => [a]
  | a :: b :: rest =>
    if a = b then compactStrings (b :: rest) else a :: compactStrings (b :: rest)

/-- Sort followed by compaction, the first phase of `Imports.uniq`. -/
def sortCompact (l : List String) : List String := compactStrings (sortStrings l)

/-- Models the `Imports` struct (objc.go:44-49): framework import hints, local
header includes, forward class declarations, forward protocol declarations. -/
structure Imports where
  Imports : List String
  Locals : List String
  Classes : List String
  Protos : List String
deriving DecidableEq

def emptyImports : Imports := ⟨[], [], [], []⟩

def addImport (i : Imports) (x : String) : Imports := { i with Imports := i.Imports ++ [x] }

def addLocal (i : Imports) (x : String) : Imports := { i with Locals := i.Locals ++ [x] }

def addClass (i : Imports) (x : String) : Imports := { i with Classes := i.Classes ++ [x] }

def addProto (i : Imports) (x : String) : Imports := { i with Protos := i.Protos ++ [x] }

/-- The Foundation/CoreFoundation reference index: `o.foundation["classes"]`
and `o.foundation["protocols"]` (both kept sorted by `scanFoundation`). -/
structure FoundationIdx where
  classes : List String
  protocols : List String
deriving DecidableEq

/-- The suffix stripping applied to a `Locals` entry inside `uniq`
(first `-Protocol.h`, then `.h`). -/
def stripLocal (l : String) : String := dropSufOnce ".h" (dropSufOnce "-Protocol.h" l)

/-- The `Locals` deletion test of `uniq` (objc.go:60-66).  The Go code uses
`slices.BinarySearch` over the foundation lists, which are kept sorted by
`scanFoundation`; its found-flag is therefore list membership. -/
def foundationHasLocal (fnd : FoundationIdx) (l : String) : Bool :=
  fnd.classes.contains (stripLocal l) || fnd.protocols.contains (stripLocal l)

/-- Models `Imports.uniq` (objc.go:51-77): sort and compact all four sets, then
drop `Locals` entries whose stripped name is a Foundation class or protocol,
`Classes` entries that are Foundation classes, and `Protos` entries that are
Foundation protocols.  The `Imports` hints are deduplicated but never filtered. -/
def uniqImports (i : Imports) (fnd : FoundationIdx) : Imports where
  Imports := sortCompact i.Imports
  Locals := (sortCompact i.Locals).filter (fun l => !(foundationHasLocal fnd l))
  Classes := (sortCompact i.Classes).filter (fun c => !(fnd.classes.contains c))
  Protos := (sortCompact i.Protos).filter (fun p => !(fnd.protocols.contains p))

/-- An ivar descriptor: name and raw type-encoding string (`ivar.Type`). -/
structure ObjcIvar where
  name : String
  typ : String
deriving DecidableEq

/-- A property descriptor: name and declaration-style type string
(`prop.Type()`). -/
structure ObjcProperty where
  name : String
  typ : String
deriving DecidableEq

/-- A method descriptor: selector name and argument type strings;
`args.length` models `NumberOfArguments()` and `args[i]` models
`ArgumentType(i)`. -/
structure ObjcMethod where
  name : String
  args : List String
deriving DecidableEq

/-- A class descriptor as read by the core.  `protocols` holds the names of the
adopted protocols; `verbose` is the opaque output of
`swift.DemangleBlob(class.Verbose())`. -/
structure ObjcClass where
  name : String
  superClass : String
  protocols : List String
  ivars : List ObjcIvar
  props : List ObjcProperty
  instanceMethods : List ObjcMethod
  classMethods : List ObjcMethod
  verbose : String
deriving DecidableEq

/-- A protocol descriptor: display name plus the opaque identity value
(`proto.Ptr`) used for deduplication. -/
structure ObjcProtocol where
  name : String
  ptr : Nat
  verbose : String
deriving DecidableEq

/-- A category descriptor; `ext` models the `cat.Class` pointer (its name, or
`none` when the pointer is nil). -/
structure ObjcCategory where
  name : String
  ext : Option String
  verbose : String
deriving DecidableEq

/-- The by-name sort relation for class descriptors. -/
def classNameLe (a b : ObjcClass) : Prop := strLe a.name b.name = true

instance : DecidableRel classNameLe :=
  fun a b => inferInstanceAs (Decidable (strLe a.name b.name = true))

/-- The by-name sort relation for protocol descriptors. -/
def protoNameLe (a b : ObjcProtocol) : Prop := strLe a.name b.name = true

instance : DecidableRel protoNameLe :=
  fun a b => inferInstanceAs (Decidable (strLe a.name b.name = true))

/-- The by-name sort relation for category descriptors. -/
def catNameLe (a b : ObjcCategory) : Prop := strLe a.name b.name = true

instance : DecidableRel catNameLe :=
  fun a b => inferInstanceAs (Decidable (strLe a.name b.name = true))

/-- Models `slices.SortStableFunc(classes, cmp by Name)`; insertion sort is the
stable sort. -/
def sortClasses (l : List ObjcClass) : List ObjcClass := List.insertionSort classNameLe l

/-- Models `slices.SortStableFunc(protos, cmp by Name)`. -/
def sortProtos (l : List ObjcProtocol) : List ObjcProtocol := List.insertionSort protoNameLe l

/-- Models `slices.SortStableFunc(cats, cmp by Name)`. -/
def sortCats (l : List ObjcCategory) : List ObjcCategory := List.insertionSort catNameLe l

/-- Resolution of a protocol reference (objc.go:719-725 and the matching ivar
and property branches): a local protocol include when the name is known in this
binary, else a forward protocol declaration. -/
def protoRefStep (pns : List String) (imp : Imports) (name : String) : Imports :=
  if pns.contains name then addLocal imp (name ++ "-Protocol.h") else addProto imp name

/-- The declaration-style object-pointer heuristic (objc.go:776, 789, 806):
non-empty, first character uppercase letter, ends in `*`.  The Go code applies
`unicode.IsUpper`/`IsLetter` to the first byte; for the ASCII identifiers at
hand this agrees with the character-level check. -/
def objPtrGuard (typ : String) : Bool :=
  match typ.data with
  | [] => false
  | c :: _ => c.isUpper && c.isAlpha && strHasSuf "*" typ

/-- Ivar type-encoding classification (objc.go:726-755). -/
def ivarStep (cns pns : List String) (imp : Imports) (typ0 : String) : Imports :=
  if containsAngle typ0 then
    let typ1 := trimSet "@\"" typ0
    if strHasPre "NSObject<" typ1 then
      let t := dropSufOnce ">" (strDropN 9 typ1)
      let imp := protoRefStep pns imp t
      protoRefStep pns imp (trimSet "<>" t)
    else
      protoRefStep pns imp (trimSet "<>" typ1)
  else
    if strHasPre "@\"" typ0 then
      let t := dropSufOnce "\"" (strDropN 2 typ0)
      if cns.contains t then addLocal imp (t ++ ".h") else addClass imp t
    else imp

/-- Property type classification (objc.go:756-785). -/
def propStep (cns pns : List String) (imp : Imports) (typ0 : String) : Imports :=
  if containsAngle typ0 then
    let typ1 := trimSet " *" (trimSet "@\"" typ0)
    if strHasPre "NSObject<" typ1 then
      let t := dropSufOnce ">" (strDropN 9 typ1)
      let imp := protoRefStep pns imp t
      protoRefStep pns imp (trimSet "<>" t)
    else
      protoRefStep pns imp (trimSet "<>" typ1)
  else
    if objPtrGuard typ0 then
      let t := trimSet " *" typ0
      if cns.contains t then addLocal imp (t ++ ".h") else addClass imp t
    else imp

/-- Instance-method argument classification (objc.go:788-797): local class
include, else local protocol include (via `strings.Trim(typ, "NSObject<>")`),
else forward class declaration. -/
def instanceArgStep (cns pns : List String) (imp : Imports) (typ : String) : Imports :=
  if objPtrGuard typ then
    if cns.contains typ then addLocal imp (typ ++ ".h")
    else if pns.contains (trimSet "NSObject<>" typ) then
      addLocal imp (trimSet "NSObject<>" typ ++ "-Protocol.h")
    else addClass imp typ
  else imp

/-- Class-method argument classification (objc.go:805-812): local class
include, else forward class declaration.  Unlike the instance-method branch,
the binary's protocol-name set is not consulted. -/
def classArgStep (cns : List String) (imp : Imports) (typ : String) : Imports :=
  if objPtrGuard typ then
    if cns.contains typ then addLocal imp (typ ++ ".h")
    else addClass imp typ
  else imp

/-- The method argument loop (objc.go:787-801 and 804-816), fuel-indexed with
the exact Go control flow: `for i := 0; i < n; i++ { step(args[i]); if i == 0 {
i += 2 } }`.  One unit of fuel per executed iteration; the index strictly
increases, so `args.length` fuel always suffices. -/
def loopArgs (step : Imports → String → Imports) (args : List String) :
    Nat → Nat → Imports → Imports
  | 0, _, imp => imp
  | fuel + 1, i, imp =>
    if h : i < args.length then
      loopArgs step args fuel ((if i = 0 then i + 2 else i) + 1) (step imp (args.get ⟨i, h⟩))
    else imp

/-- One method's whole argument walk. -/
def methodArgImports (step : Imports → String → Imports) (args : List String)
    (imp : Imports) : Imports :=
  loopArgs step args args.length 0 imp

/-- The raw (pre-`uniq`) import set of one class (objc.go:714-817): Foundation
hint for an `NSObject` superclass, adopted protocols, ivars, properties,
instance methods, class methods, in source order. -/
def classRawImports (cns pns : List String) (c : ObjcClass) : Imports :=
  let imp : Imports := ⟨if c.superClass = "NSObject" then ["Foundation"] else [], [], [], []⟩
  let imp := c.protocols.foldl (protoRefStep pns) imp
  let imp := c.ivars.foldl (fun imp iv => ivarStep cns pns imp iv.typ) imp
  let imp := c.props.foldl (fun imp p => propStep cns pns imp p.typ) imp
  let imp := c.instanceMethods.foldl
    (fun imp m => methodArgImports (instanceArgStep cns pns) m.args imp) imp
  c.classMethods.foldl (fun imp m => methodArgImports (classArgStep cns) m.args imp) imp

/-- One class's normalized import set: raw extraction followed by `uniq`. -/
def resolveClass (fnd : FoundationIdx) (cns pns : List String) (c : ObjcClass) : Imports :=
  uniqImports (classRawImports cns pns c) fnd

/-- Models `processForwardDeclarations` (objc.go:682-823) applied to the
already-sorted class and protocol lists: the per-class-name map of
normalized import sets.  A missing key yields Go's zero `Imports` value. -/
def processForwardDecls (fnd : FoundationIdx) (scls : List ObjcClass)
    (sprs : List ObjcProtocol) : String → Imports :=
  let cns := scls.map (·.name)
  let pns := sprs.map (·.name)
  scls.foldl (fun f c => fun n => if n = c.name then resolveClass fnd cns pns c else f n)
    (fun _ => emptyImports)

/-- The accessor stripping applied to a class before rendering
(objc.go:496-510): drop ivars whose underscore-stripped name is a property
name, and instance methods whose selector (or its setter transform) is a
property name. -/
def stripAccessors (c : ObjcClass) : ObjcClass :=
  let props := sortStrings (c.props.map (·.name))
  { c with
    ivars := c.ivars.filter (fun iv => !(props.contains (trimUnderscore iv.name)))
    instanceMethods := c.instanceMethods.filter
      (fun m => !(props.contains m.name || props.contains (transformSetter m.name))) }

/-- The protocol emission loop (objc.go:536-558): walk the sorted protocol
list, skipping Foundation protocols and descriptors whose identity (`Ptr`) was
already seen; returns the emitted descriptors in order. -/
def protoEmitLoop (fndProtos : List String) : List ObjcProtocol → List Nat → List ObjcProtocol
  | [], _ => []
  | p :: rest, seen =>
    if fndProtos.contains p.name then protoEmitLoop fndProtos rest seen
    else if seen.contains p.ptr then protoEmitLoop fndProtos rest seen
    else p :: protoEmitLoop fndProtos rest (p.ptr :: seen)

/-- Models the `headerInfo` struct (objc.go:79-88) minus the target path, which
the pipeline carries alongside. -/
structure HInfo where
  ipswVersion : String
  buildVersions : List String
  sourceVersion : String
  isUmbrella : Bool
  name : String
  imps : Imports
  object : String

/-- The `#include` block for `Locals` (objc.go:653-658). -/
def localLines (ls : List String) : String :=
  if ls.length > 0 then
    (ls.foldl (fun acc l => acc ++ "#include \"" ++ l ++ "\"\n") "") ++ "\n"
  else ""

/-- The forward-declaration block (objc.go:659-667). -/
def fwdLines (i : Imports) : String :=
  (if i.Classes.length > 0 then "@class " ++ strJoin ", " i.Classes ++ ";\n" else "")
    ++ (if i.Protos.length > 0 then "@protocol " ++ strJoin ", " i.Protos ++ ";\n" else "")
    ++ (if i.Classes.length > 0 || i.Protos.length > 0 then "\n" else "")

/-- The leading comment block of `writeHeader`'s format string
(objc.go:635-641): tool version, build-version lines, source-version line. -/
def commentBlock (ipsw : String) (bvs : List String) (sv : String) : String :=
  "//\n//   Generated by https://github.com/blacktop/ipsw (" ++ ipsw
    ++ ")\n//\n//    - LC_BUILD_VERSION:  "
    ++ strJoin "\n//    - LC_BUILD_VERSION:  " bvs
    ++ "\n//    - LC_SOURCE_VERSION: " ++ sv
    ++ "\n//\n"

/-- Models `writeHeader`'s rendered text `out` (objc.go:632-669). -/
def renderHeader (h : HInfo) : String :=
  commentBlock h.ipswVersion h.buildVersions h.sourceVersion
    ++ "#ifndef " ++ h.name ++ "_h\n#define " ++ h.name ++ "_h\n"
    ++ (if h.isUmbrella then "" else "@import Foundation;\n")
    ++ "\n"
    ++ localLines h.imps.Locals
    ++ fwdLines h.imps
    ++ h.object ++ "\n"
    ++ "#endif /* " ++ h.name ++ "_h */\n"

/-- Split a character list into lines at newline characters (the semantics of
splitting the rendered file on `\n`). -/
def splitNl : List Char → List (List Char)
  | [] => [[]]
  | c :: cs =>
    if c = '\n' then [] :: splitNl cs
    else
      match splitNl cs with
      | l :: ls => (c :: l) :: ls
      | [] => [[c]]

/-- The text after `marker` on the first line that starts with `marker`. -/
def lineValue (marker : List Char) (lines : List (List Char)) : Option (List Char) :=
  match lines.find? (fun l => marker.isPrefixOf l) with
  | some l => some (l.drop marker.length)
  | none => none

/-- Parse the include-guard name back out of a generated header: the token
after `#ifndef ` and the token after `#define ` on the first lines carrying
those markers, provided the two agree. -/
def parseGuard (s : String) : Option String :=
  match lineValue "#ifndef ".data (splitNl s.data), lineValue "#define ".data (splitNl s.data) with
  | some a, some b => if a = b then some (String.mk a) else none
  | _, _ => none

/-- A string without newline characters (version strings and entity names are
single-line in practice; the round-trip statement needs this spelled out). -/
@[reducible] def noNl (s : String) : Prop := '\n' ∉ s.data

/-- The per-module configuration and load-command metadata the pipeline reads:
output root, module name (`o.conf.Name` after the `DylibID` update), tool
version, build-version strings and source-version string. -/
structure ModConf where
  output : String
  name : String
  ipswVersion : String
  buildVersions : List String
  sourceVersion : String

/-- Models `filepath.Join(output, module, file)` for the cleaned, non-empty
components the pipeline produces. -/
def joinPath (dir sub file : String) : String := dir ++ "/" ++ sub ++ "/" ++ file

/-- The class-header basenames, in emission order (objc.go:496-524). -/
def classBasenames (scls : List ObjcClass) : List String :=
  scls.map (fun c => c.name ++ ".h")

/-- The protocols that actually get a header (objc.go:536-558). -/
def emittedProtos (fnd : FoundationIdx) (sprs : List ObjcProtocol) : List ObjcProtocol :=
  protoEmitLoop fnd.protocols sprs []

/-- The protocol-header basenames, in emission order. -/
def protoBasenames (fnd : FoundationIdx) (sprs : List ObjcProtocol) : List String :=
  (emittedProtos fnd sprs).map (fun p => p.name ++ "-Protocol.h")

/-- The category-header file name (objc.go:570-574). -/
def catBasename (cat : ObjcCategory) : String :=
  match cat.ext with
  | some cls => if cls = "" then cat.name ++ ".h" else cls ++ "+" ++ cat.name ++ ".h"
  | none => cat.name ++ ".h"

/-- The category-header basenames, in emission order. -/
def catBasenames (scats : List ObjcCategory) : List String := scats.map catBasename

/-- The accumulated `headers` list of basenames for one binary, in emission
order (classes, then protocols, then categories). -/
def allBasenames (fnd : FoundationIdx) (scls : List ObjcClass) (sprs : List ObjcProtocol)
    (scats : List ObjcCategory) : List String :=
  classBasenames scls ++ protoBasenames fnd sprs ++ catBasenames scats

/-- The umbrella header name (objc.go:590-596): `<Module>-Umbrella` when some
emitted header is literally named `<Module>.h`, else `<Module>`. -/
def umbrellaNameSorted (conf : ModConf) (fnd : FoundationIdx) (scls : List ObjcClass)
    (sprs : List ObjcProtocol) (scats : List ObjcCategory) : String :=
  if (allBasenames fnd scls sprs scats).contains (conf.name ++ ".h") then
    conf.name ++ "-Umbrella"
  else conf.name

/-- The `headerInfo` built for one entity header. -/
def entityHInfo (conf : ModConf) (imps : String → Imports) (ename obj : String) : HInfo :=
  ⟨conf.ipswVersion, conf.buildVersions, conf.sourceVersion, false, ename, imps ename, obj⟩

/-- The class-header writes: (path, rendered bytes) in emission order.  The
object text is produced from the accessor-stripped descriptor. -/
def classWrites (conf : ModConf) (imps : String → Imports) (scls : List ObjcClass) :
    List (String × String) :=
  scls.map (fun c => (joinPath conf.output conf.name (c.name ++ ".h"),
    renderHeader (entityHInfo conf imps c.name (stripAccessors c).verbose)))

/-- The protocol-header writes in emission order. -/
def protoWrites (conf : ModConf) (imps : String → Imports) (fnd : FoundationIdx)
    (sprs : List ObjcProtocol) : List (String × String) :=
  (emittedProtos fnd sprs).map (fun p => (joinPath conf.output conf.name (p.name ++ "-Protocol.h"),
    renderHeader (entityHInfo conf imps p.name p.verbose)))

/-- The category-header writes in emission order. -/
def catWrites (conf : ModConf) (imps : String → Imports) (scats : List ObjcCategory) :
    List (String × String) :=
  scats.map (fun cat => (joinPath conf.output conf.name (catBasename cat),
    renderHeader (entityHInfo conf imps cat.name cat.verbose)))

/-- The umbrella write (objc.go:589-614), emitted only when at least one entity
header was written: its guard name is the umbrella name with `-` replaced by
`_`, and its body is one `#import` line per emitted basename. -/
def umbrellaWrites (conf : ModConf) (fnd : FoundationIdx) (scls : List ObjcClass)
    (sprs : List ObjcProtocol) (scats : List ObjcCategory) : List (String × String) :=
  let hs := allBasenames fnd scls sprs scats
  if hs.length > 0 then
    let u := umbrellaNameSorted conf fnd scls sprs scats
    [(joinPath conf.output conf.name (u ++ ".h"),
      renderHeader ⟨conf.ipswVersion, conf.buildVersions, conf.sourceVersion, true,
        replaceDash u, emptyImports,
        strJoin "\n" (hs.map (fun h => "#import \"" ++ h ++ "\"")) ++ "\n"⟩)]
  else []

/-- The full `writeHeaders` pipeline for one binary whose descriptor lists have
already been sorted (every consumer in the Go code sorts the same underlying
lists with the same stable by-name comparison). -/
def writeHeadersSorted (conf : ModConf) (fnd : FoundationIdx) (scls : List ObjcClass)
    (sprs : List ObjcProtocol) (scats : List ObjcCategory) : List (String × String) :=
  let imps := processForwardDecls fnd scls sprs
  classWrites conf imps scls ++ protoWrites conf imps fnd sprs ++ catWrites conf imps scats
    ++ umbrellaWrites conf fnd scls sprs scats

/-- The ObjC descriptor lists of one binary, as handed over by the external
Mach-O parser. -/
structure Binary where
  classes : List ObjcClass
  protos : List ObjcProtocol
  cats : List ObjcCategory

/-- `writeHeaders` (objc.go:460-617) on one binary: the ordered list of
(file path, file bytes) writes it performs. -/
def writeHeadersModel (conf : ModConf) (fnd : FoundationIdx) (bin : Binary) :
    List (String × String) :=
  writeHeadersSorted conf fnd (sortClasses bin.classes) (sortProtos bin.protos)
    (sortCats bin.cats)

/-- The final bytes of a file after a write sequence (later writes to the same
path overwrite earlier ones). -/
def finalFile (writes : List (String × String)) (path : String) : Option String :=
  writes.foldl (fun acc w => if w.1 = path then some w.2 else acc) none

/-- The result of fetching one ObjC metadata section from an image: typed
descriptors, a non-fatal section-not-found signal, or a fatal parse error. -/
inductive SectRes (α : Type) where
  | ok (val : α)
  | notFound
  | fail (msg : String)

/-- One reference image as served by the shared cache, with `Image` lookup and
`GetMacho` collapsed into the loader function below; the two section fetches
the scan performs are the fields here. -/
structure CacheImage where
  classes : SectRes (List ObjcClass)
  protos : SectRes (List ObjcProtocol)

/-- Section fetch with the `ErrObjcSectionNotFound` special case: not-found is
an empty list, any other failure is fatal. -/
def sectOrEmpty {α : Type} : SectRes (List α) → Except String (List α)
  | .ok l => .ok l
  | .notFound => .ok []
  | .fail e => .error e

/-- One iteration of the `scanFoundation` image loop (objc.go:829-866): fetch
classes and protocols, append their names, re-sort both accumulated lists. -/
def scanImage (f : FoundationIdx) (img : CacheImage) : Except String FoundationIdx := do
  let cls ← sectOrEmpty img.classes
  let prs ← sectOrEmpty img.protos
  let classNames := (sortClasses cls).map (·.name)
  let protoNames := (sortProtos prs).map (·.name)
  pure ⟨sortStrings (f.classes ++ classNames), sortStrings (f.protocols ++ protoNames)⟩

/-- Models `scanFoundation` (objc.go:825-869): with no shared cache the index
is two empty sets and the call succeeds; otherwise the two fixed reference
images are loaded in order and any load failure is returned as-is. -/
def scanFoundation (cache : Option (String → Except String CacheImage)) :
    Except String FoundationIdx :=
  match cache with
  | none => .ok ⟨[], []⟩
  | some load => do
    let img ← load "Foundation"
    let f ← scanImage ⟨[], []⟩ img
    let img2 ← load "CoreFoundation"
    scanImage f img2

/-- `Headers` (objc.go:452-628) on the primary binary: `scanFoundation` first,
its failure failing the whole operation, then the write pipeline. -/
def headersRun (cache : Option (String → Except String CacheImage)) (conf : ModConf)
    (bin : Binary) : Except String (List (String × String)) :=
  (scanFoundation cache).map (fun fnd => writeHeadersModel conf fnd bin)

/-! ## Sample inputs used by witnesses and counterexamples -/

/-- A class declaring property `foo` together with its synthesized backing
ivar `_foo`, getter `foo` and setter `setFoo:`. -/
def sampleClass : ObjcClass :=
  ⟨"Widget", "NSObject", [], [⟨"_foo", "@\"NSString\""⟩, ⟨"_bar", "@\"NSData\""⟩],
    [⟨"foo", "NSString *"⟩], [⟨"foo", []⟩, ⟨"setFoo:", []⟩, ⟨"doWork", []⟩], [], "body"⟩

/-- A module configuration with plain single-line metadata. -/
def sampleConf : ModConf := ⟨"out", "Mod", "1.0", ["b1"], "sv"⟩

/-- Two distinct class descriptors sharing the name `Foo` (same metadata name,
different bodies). -/
def fooOne : ObjcClass := ⟨"Foo", "", [], [], [], [], [], "BODY-ONE"⟩

def fooTwo : ObjcClass := ⟨"Foo", "", [], [], [], [], [], "BODY-TWO"⟩

/-- A cache loader whose `Foundation` image fails to load. -/
def failingLoader : String → Except String CacheImage :=
  fun n => if n = "Foundation" then .error "boom" else .ok ⟨.ok [], .ok []⟩

/-! ## Order facts for the string comparison -/

theorem char_eq_of_toNat_eq {a b : Char} (h : a.toNat = b.toNat) : a = b := by
  cases a
  cases b
  simp only [Char.toNat] at h
  congr 1
  exact UInt32.ext h

theorem lexLe_cons_iff {x y : Char} {xs ys : List Char} :
    lexLe (x :: xs) (y :: ys) = true
      ↔ (x.toNat < y.toNat ∨ (x.toNat = y.toNat ∧ lexLe xs ys = true)) := by
  simp only [lexLe]
  by_cases h1 : x.toNat < y.toNat
  · simp [h1]
  · by_cases h2 : y.toNat < x.toNat
    · simp only [if_neg h1, if_pos h2]
      constructor
      · intro h; exact absurd h (by simp)
      · intro h; omega
    · have h3 : x.toNat = y.toNat := by omega
      simp [h1, h2, h3]

theorem lexLe_total : ∀ a b : List Char, lexLe a b = true ∨ lexLe b a = true := by
  intro a
  induction a with
  | nil => intro b; left; rfl
  | cons x xs ih =>
    intro b
    cases b with
    | nil => right; rfl
    | cons y ys =>
      rcases Nat.lt_trichotomy x.toNat y.toNat with h | h | h
      · left; rw [lexLe_cons_iff]; exact .inl h
      · rcases ih ys with h2 | h2
        · left; rw [lexLe_cons_iff]; exact .inr ⟨h, h2⟩
        · right; rw [lexLe_cons_iff]; exact .inr ⟨h.symm, h2⟩
      · right; rw [lexLe_cons_iff]; exact .inl h

theorem lexLe_trans :
    ∀ a b c : List Char, lexLe a b = true → lexLe b c = true → lexLe a c = true := by
  intro a
  induction a with
  | nil => intro b c _ _; rfl
  | cons x xs ih =>
    intro b c hab hbc
    cases b with
    | nil => simp [lexLe] at hab
    | cons y ys =>
      cases c with
      | nil => simp [lexLe] at hbc
      | cons z zs =>
        rw [lexLe_cons_iff] at hab hbc ⊢
        rcases hab with h1 | ⟨h1, h1'⟩
        · rcases hbc with h2 | ⟨h2, _⟩
          · exact .inl (h1.trans h2)
          · exact .inl (by omega)
        · rcases hbc with h2 | ⟨h2, h2'⟩
          · exact .inl (by omega)
          · exact .inr ⟨by omega, ih ys zs h1' h2'⟩

theorem lexLe_antisymm :
    ∀ a b : List Char, lexLe a b = true → lexLe b a = true → a = b := by
  intro a
  induction a with
  | nil =>
    intro b _ hba
    cases b with
    | nil => rfl
    | cons y ys => simp [lexLe] at hba
  | cons x xs ih =>
    intro b hab hba
    cases b with
    | nil => simp [lexLe] at hab
    | cons y ys =>
      rw [lexLe_cons_iff] at hab hba
      rcases hab with h1 | ⟨h1, h1'⟩
      · rcases hba with h2 | ⟨h2, _⟩ <;> omega
      · rcases hba with h2 | ⟨h2, h2'⟩
        · omega
        · rw [char_eq_of_toNat_eq h1, ih ys h1' h2']

instance : IsTotal String strLeRel := ⟨fun a b => lexLe_total a.data b.data⟩

instance : IsTrans String strLeRel := ⟨fun _ _ _ hab hbc => lexLe_trans _ _ _ hab hbc⟩

theorem strLe_antisymm {a b : String} (hab : strLeRel a b) (hba : strLeRel b a) : a = b := by
  cases a
  cases b
  exact congrArg String.mk (lexLe_antisymm _ _ hab hba)

instance : IsAntisymm String strLeRel := ⟨fun _ _ hab hba => strLe_antisymm hab hba⟩

/-- The strict version of the sort order, used to state that a sorted,
compacted list has pairwise strictly increasing entries. -/
def strLtRel (a b : String) : Prop := strLeRel a b ∧ a ≠ b

/-! ## Facts about `sortCompact` and `uniqImports` -/

theorem compactStrings_cons_head :
    ∀ (l : List String) (a : String), ∃ t, compactStrings (a :: l) = a :: t := by
  intro l
  induction l with
  | nil => intro a; exact ⟨[], rfl⟩
  | cons b r ih =>
    intro a
    by_cases h : a = b
    · subst h
      simp only [compactStrings, if_pos rfl]
      exact ih a
    · exact ⟨compactStrings (b :: r), by simp [compactStrings, h]⟩

theorem compactStrings_sublist : ∀ l : List String, List.Sublist (compactStrings l) l := by
  intro l
  induction l with
  | nil => exact .slnil
  | cons a t ih =>
    cases t with
    | nil => simp [compactStrings]
    | cons b r =>
      by_cases h : a = b
      · simp only [compactStrings, if_pos h]
        exact ih.cons a
      · simp only [compactStrings, if_neg h]
        exact ih.cons₂ a

theorem compactStrings_sorted :
    ∀ l : List String, l.Sorted strLeRel → (compactStrings l).Sorted strLtRel := by
  intro l
  induction l with
  | nil => intro _; exact List.sorted_nil
  | cons a t ih =>
    intro hs
    cases t with
    | nil => exact List.sorted_singleton a
    | cons b r =>
      rw [List.sorted_cons] at hs
      by_cases h : a = b
      · simp only [compactStrings, if_pos h]
        exact ih hs.2
      · simp only [compactStrings, if_neg h]
        rw [List.sorted_cons]
        refine ⟨?_, ih hs.2⟩
        intro x hx
        have hxmem : x ∈ b :: r := (compactStrings_sublist (b :: r)).subset hx
        refine ⟨hs.1 x hxmem, ?_⟩
        intro he
        subst he
        rcases List.mem_cons.mp hxmem with h1 | h1
        · exact h h1
        · have hba : strLeRel b a := (List.sorted_cons.mp hs.2).1 a h1
          have hab : strLeRel a b := hs.1 b (List.mem_cons_self b r)
          exact h (strLe_antisymm hab hba)

theorem compactStrings_eq_self :
    ∀ l : List String, l.Sorted strLtRel → compactStrings l = l := by
  intro l
  induction l with
  | nil => intro _; rfl
  | cons a t ih =>
    intro hs
    cases t with
    | nil => rfl
    | cons b r =>
      rw [List.sorted_cons] at hs
      have hne : a ≠ b := (hs.1 b (List.mem_cons_self b r)).2
      simp only [compactStrings, if_neg hne]
      rw [ih hs.2]

theorem sorted_le_of_lt {l : List String} (h : l.Sorted strLtRel) : l.Sorted strLeRel :=
  h.imp (fun hx => hx.1)

theorem sortCompact_sorted (l : List String) : (sortCompact l).Sorted strLtRel :=
  compactStrings_sorted _ (List.sorted_insertionSort strLeRel l)

theorem sortCompact_eq_self {l : List String} (h : l.Sorted strLtRel) : sortCompact l = l := by
  unfold sortCompact sortStrings
  rw [List.Sorted.insertionSort_eq (sorted_le_of_lt h)]
  exact compactStrings_eq_self l h

theorem sorted_filter_strLt {p : String → Bool} {l : List String} (h : l.Sorted strLtRel) :
    (l.filter p).Sorted strLtRel :=
  h.sublist (List.filter_sublist l)

theorem filter_self_idem {α : Type} (p : α → Bool) (l : List α) :
    (l.filter p).filter p = l.filter p := by
  induction l with
  | nil => rfl
  | cons a t ih =>
    by_cases h : p a = true
    · simp [List.filter_cons, h, ih]
    · simp [List.filter_cons, h, ih]

/-- Claim C3: normalization is idempotent — applying `uniq` to an
already-normalized `Imports` value leaves all four sets unchanged, for every
raw value and every FoundationIndex. -/
theorem uniq_idempotent (i : Imports) (fnd : FoundationIdx) :
    uniqImports (uniqImports i fnd) fnd = uniqImports i fnd := by
  have hsc : ∀ l : List String, sortCompact (sortCompact l) = sortCompact l :=
    fun l => sortCompact_eq_self (sortCompact_sorted l)
  have hfl : ∀ (p : String → Bool) (l : List String),
      (sortCompact ((sortCompact l).filter p)).filter p = (sortCompact l).filter p := by
    intro p l
    rw [sortCompact_eq_self (sorted_filter_strLt (sortCompact_sorted l))]
    exact filter_self_idem p _
  show Imports.mk _ _ _ _ = Imports.mk _ _ _ _
  rw [Imports.mk.injEq]
  exact ⟨hsc _, hfl _ _, hfl _ _, hfl _ _⟩

/-- Claim C2 (amended): suppression is per kind — after `uniq` no Foundation
class name survives in `Classes`, no Foundation protocol name survives in
`Protos`, and no `Locals` entry strips to a name in either Foundation set.
(A Foundation class name can still appear in `Protos` and vice versa; see the
counterexample.) -/
theorem uniq_suppression_per_kind (i : Imports) (fnd : FoundationIdx) :
    ((uniqImports i fnd).Classes.all (fun n => !(fnd.classes.contains n))
      && (uniqImports i fnd).Protos.all (fun n => !(fnd.protocols.contains n))
      && (uniqImports i fnd).Locals.all (fun l => !(fnd.classes.contains (stripLocal l))
            && !(fnd.protocols.contains (stripLocal l)))) = true := by
  simp only [Bool.and_eq_true, List.all_eq_true]
  refine ⟨⟨?_, ?_⟩, ?_⟩
  · intro n hn
    exact (List.mem_filter.mp hn).2
  · intro n hn
    exact (List.mem_filter.mp hn).2
  · intro l hl
    have := (List.mem_filter.mp hl).2
    simp only [foundationHasLocal, Bool.not_eq_true', Bool.or_eq_false_iff] at this
    rw [this.1, this.2]
    exact ⟨rfl, rfl⟩

/-- Claim C2 is false as stated: it demands that a name in either Foundation
set appears in none of the three rendered sets, but `uniq` filters `Protos`
only against the Foundation protocol set.  Concretely, a class with ivar
type-encoding `<NSString>` yields a rendered `Protos` entry `NSString` even
though `NSString` is in the Foundation class set. -/
theorem foundation_class_name_in_protos :
    "NSString" ∈ (resolveClass ⟨["NSString"], []⟩ ["Widget"] []
        ⟨"Widget", "NSObject", [], [⟨"_x", "<NSString>"⟩], [], [], [], ""⟩).Protos
      ∧ "NSString" ∈ (⟨["NSString"], []⟩ : FoundationIdx).classes := by
  constructor
  · decide
  · decide

/-! ## The method-argument walk (claims C1 and C10) -/

theorem loopArgs_from (step : Imports → String → Imports) (args : List String) :
    ∀ (fuel i : Nat) (imp : Imports), 1 ≤ i → args.length - i ≤ fuel →
      loopArgs step args fuel i imp = (args.drop i).foldl step imp := by
  intro fuel
  induction fuel with
  | zero =>
    intro i imp _ h2
    rw [List.drop_eq_nil_of_le (by omega)]
    rfl
  | succ fuel ih =>
    intro i imp h1 h2
    by_cases h : i < args.length
    · have hne : ¬ i = 0 := by omega
      simp only [loopArgs, dif_pos h, if_neg hne]
      rw [ih (i + 1) _ (by omega) (by omega)]
      rw [List.drop_eq_getElem_cons h]
      rfl
    · simp only [loopArgs, dif_neg h]
      rw [List.drop_eq_nil_of_le (by omega)]
      rfl

theorem methodArgImports_processed (step : Imports → String → Imports) (args : List String)
    (imp : Imports) :
    methodArgImports step args imp = ((args.take 1) ++ (args.drop 3)).foldl step imp := by
  cases args with
  | nil => rfl
  | cons a rest =>
    have h0 : 0 < (a :: rest).length := by simp
    have step1 : methodArgImports step (a :: rest) imp
        = loopArgs step (a :: rest) rest.length 3 (step imp a) := by
      show loopArgs step (a :: rest) (rest.length + 1) 0 imp = _
      simp only [loopArgs, dif_pos h0]
      norm_num
    rw [step1,
      loopArgs_from step (a :: rest) rest.length 3 (step imp a) (by omega)
        (by simp only [List.length_cons]; omega)]
    rfl

/-- Claim C1 (amended): for every class and every instance or class method, the
argument walk classifies index 0 and then every index from 3 onward — the
`i += 2` inside the loop body combines with the loop increment to skip indices
1 AND 2, not only the selector index 1.  The classified arguments are exactly
`args.take 1 ++ args.drop 3`, folded in order, for both walks. -/
theorem method_walk_processes_take1_drop3 (cns pns : List String) (args : List String)
    (imp : Imports) :
    methodArgImports (instanceArgStep cns pns) args imp
        = ((args.take 1) ++ (args.drop 3)).foldl (instanceArgStep cns pns) imp
      ∧ methodArgImports (classArgStep cns) args imp
        = ((args.take 1) ++ (args.drop 3)).foldl (classArgStep cns) imp :=
  ⟨methodArgImports_processed _ _ _, methodArgImports_processed _ _ _⟩

/-- Claim C1 counterexample: with classifiable argument types at indices
0,1,2,3, only the types at indices 0 and 3 are classified — the type `C*` at
index 2 is skipped, contradicting the claim that every index other than 1 is
classified. -/
theorem method_walk_index_two_unclassified :
    (methodArgImports (instanceArgStep [] []) ["A*", "B*", "C*", "D*"] emptyImports).Classes
        = ["A*", "D*"]
      ∧ "C*" ∉ (methodArgImports (instanceArgStep [] []) ["A*", "B*", "C*", "D*"]
          emptyImports).Classes := by
  constructor
  · decide
  · decide

theorem classArgStep_locals (cns : List String) (imp : Imports) (t x : String)
    (hx : x ∈ (classArgStep cns imp t).Locals) :
    x ∈ imp.Locals ∨ ∃ n, cns.contains n = true ∧ x = n ++ ".h" := by
  simp only [classArgStep, addLocal, addClass] at hx
  by_cases hg : objPtrGuard t = true
  · rw [if_pos hg] at hx
    by_cases hc : cns.contains t = true
    · rw [if_pos hc] at hx
      rcases List.mem_append.mp hx with h | h
      · exact .inl h
      · exact .inr ⟨t, hc, List.mem_singleton.mp h⟩
    · rw [if_neg hc] at hx
      exact .inl hx
  · rw [if_neg hg] at hx
    exact .inl hx

theorem foldl_classArg_locals (cns : List String) :
    ∀ (l : List String) (imp : Imports) (x : String),
      x ∈ (l.foldl (classArgStep cns) imp).Locals →
        x ∈ imp.Locals ∨ ∃ n, cns.contains n = true ∧ x = n ++ ".h" := by
  intro l
  induction l with
  | nil => intro imp x hx; exact .inl hx
  | cons t rest ih =>
    intro imp x hx
    rcases ih (classArgStep cns imp t) x hx with h | h
    · exact classArgStep_locals cns imp t x h
    · exact .inr h

theorem foldl_classArg_classes_mono (cns : List String) :
    ∀ (l : List String) (imp : Imports) (x : String),
      x ∈ imp.Classes → x ∈ (l.foldl (classArgStep cns) imp).Classes := by
  intro l
  induction l with
  | nil => intro imp x hx; exact hx
  | cons t rest ih =>
    intro imp x hx
    refine ih (classArgStep cns imp t) x ?_
    unfold classArgStep addLocal addClass
    by_cases hg : objPtrGuard t = true
    · rw [if_pos hg]
      by_cases hc : cns.contains t = true
      · rw [if_pos hc]
        exact hx
      · rw [if_neg hc]
        exact List.mem_append_left _ hx
    · rw [if_neg hg]
      exact hx

theorem foldl_classArg_classes_add (cns : List String) :
    ∀ (l : List String) (imp : Imports) (typ : String),
      typ ∈ l → objPtrGuard typ = true → cns.contains typ = false →
        typ ∈ (l.foldl (classArgStep cns) imp).Classes := by
  intro l
  induction l with
  | nil =>
    intro imp typ h
    exact absurd h (List.not_mem_nil typ)
  | cons t rest ih =>
    intro imp typ hmem hg hc
    rcases List.mem_cons.mp hmem with h | h
    · subst h
      refine foldl_classArg_classes_mono cns rest (classArgStep cns imp typ) typ ?_
      unfold classArgStep addLocal addClass
      rw [if_pos hg,
        if_neg (fun hcontra => Bool.false_ne_true (hc ▸ hcontra))]
      exact List.mem_append_right _ (List.mem_singleton.mpr rfl)
    · exact ih (classArgStep cns imp t) typ h hg hc

/-- Claim C10 (amended): the class-method argument walk never consults the
binary's protocol-name set and never emits a `-Protocol.h` local include —
every `Locals` entry it adds is `n ++ ".h"` for some known class name `n` —
and an argument type at a classified index that passes the object-pointer
heuristic and is NOT a known class name is added to `Classes`, even when it
names a locally-known protocol.  (When the name is also a known class it
becomes a local class include instead; see the counterexample.) -/
theorem class_method_walk_no_protocol_locals (cns : List String) (args : List String)
    (imp : Imports) :
    (∀ x ∈ (methodArgImports (classArgStep cns) args imp).Locals,
        x ∈ imp.Locals ∨ ∃ n, cns.contains n = true ∧ x = n ++ ".h")
      ∧ (∀ typ ∈ args.take 1 ++ args.drop 3, objPtrGuard typ = true →
          cns.contains typ = false →
            typ ∈ (methodArgImports (classArgStep cns) args imp).Classes) := by
  simp only [methodArgImports_processed]
  exact ⟨fun x hx => foldl_classArg_locals cns _ imp x hx,
    fun typ hmem hg hc => foldl_classArg_classes_add cns _ imp typ hmem hg hc⟩

theorem class_method_walk_no_protocol_locals_witness :
    "B*" ∈ (methodArgImports (classArgStep ["A"]) ["B*"] emptyImports).Classes :=
  (class_method_walk_no_protocol_locals ["A"] ["B*"] emptyImports).2 "B*" (by decide)
    (by decide) (by decide)

/-- Claim C10 counterexample: an argument type that names a locally-known
protocol AND a locally-known class is resolved by the class-method walk to a
local class include in `Locals`, not to the `Classes` set as the claim states. -/
theorem class_method_known_protocol_to_locals :
    ((["P*"] : List String).contains "P*" = true)
      ∧ (methodArgImports (classArgStep ["P*"]) ["P*"] emptyImports).Locals = ["P*.h"]
      ∧ (methodArgImports (classArgStep ["P*"]) ["P*"] emptyImports).Classes = [] := by
  refine ⟨by decide, by decide, by decide⟩

/-! ## Protocol emission (claim C4) -/

theorem protoEmitLoop_spec (f : List String) :
    ∀ (l : List ObjcProtocol) (seen : List Nat),
      ((protoEmitLoop f l seen).map (fun p => p.ptr)).Nodup
        ∧ ∀ p ∈ protoEmitLoop f l seen,
            f.contains p.name = false ∧ seen.contains p.ptr = false := by
  intro l
  induction l with
  | nil =>
    intro seen
    exact ⟨List.nodup_nil, fun p hp => absurd hp (List.not_mem_nil p)⟩
  | cons q rest ih =>
    intro seen
    by_cases h1 : f.contains q.name = true
    · simp only [protoEmitLoop, if_pos h1]
      exact ih seen
    · by_cases h2 : seen.contains q.ptr = true
      · simp only [protoEmitLoop, if_neg h1, if_pos h2]
        exact ih seen
      · simp only [protoEmitLoop, if_neg h1, if_neg h2]
        obtain ⟨ihn, ihm⟩ := ih (q.ptr :: seen)
        constructor
        · rw [List.map_cons, List.nodup_cons]
          refine ⟨?_, ihn⟩
          intro hmemmap
          rcases List.mem_map.mp hmemmap with ⟨p, hp, hpe⟩
          have h3 := (ihm p hp).2
          simp [List.contains_cons, hpe] at h3
        · intro p hp
          rcases List.mem_cons.mp hp with h | h
          · subst h
            exact ⟨Bool.eq_false_iff.mpr h1, Bool.eq_false_iff.mpr h2⟩
          · have h4 := ihm p h
            have h5 := h4.2
            rw [List.contains_cons, Bool.or_eq_false_iff] at h5
            exact ⟨h4.1, h5.2⟩

/-- Claim C4: over any protocol descriptor list, header generation emits at
most one protocol header per distinct identity value (`Ptr`), even when the
list repeats an identity, and emits no header for a protocol whose name is in
the Foundation protocol set. -/
theorem proto_headers_dedup_and_skip (fnd : FoundationIdx) (sprs : List ObjcProtocol) :
    ((emittedProtos fnd sprs).map (fun p => p.ptr)).Nodup
      ∧ ((emittedProtos fnd sprs).all (fun p => !(fnd.protocols.contains p.name))) = true := by
  obtain ⟨h1, h2⟩ := protoEmitLoop_spec fnd.protocols sprs []
  refine ⟨h1, ?_⟩
  rw [List.all_eq_true]
  intro p hp
  rw [(h2 p hp).1]
  rfl

/-! ## Accessor stripping (claim C5) -/

/-- Claim C5: for every class declaring a property named `foo`, the pre-render
stripping removes every ivar whose name (after stripping an optional leading
underscore) equals `foo`, and every instance method whose selector, or the
setter transform of its selector, equals `foo`. -/
theorem stripAccessors_excludes (c : ObjcClass) (foo : String)
    (hfoo : foo ∈ c.props.map (fun p => p.name)) :
    (∀ iv ∈ (stripAccessors c).ivars, trimUnderscore iv.name ≠ foo)
      ∧ (∀ m ∈ (stripAccessors c).instanceMethods,
          m.name ≠ foo ∧ transformSetter m.name ≠ foo) := by
  have hfoo' : (sortStrings (c.props.map (fun p => p.name))).contains foo = true := by
    have hmem : foo ∈ sortStrings (c.props.map (fun p => p.name)) := by
      unfold sortStrings
      rw [List.mem_insertionSort]
      exact hfoo
    exact List.elem_iff.mpr hmem
  constructor
  · intro iv hiv
    simp only [stripAccessors] at hiv
    have h := (List.mem_filter.mp hiv).2
    rw [Bool.not_eq_true'] at h
    intro he
    rw [he, hfoo'] at h
    simp at h
  · intro m hm
    simp only [stripAccessors] at hm
    have h := (List.mem_filter.mp hm).2
    rw [Bool.not_eq_true', Bool.or_eq_false_iff] at h
    constructor
    · intro he
      have h6 := h.1
      rw [he, hfoo'] at h6
      simp at h6
    · intro he
      have h6 := h.2
      rw [he, hfoo'] at h6
      simp at h6

theorem stripAccessors_excludes_witness :
    ("foo" ∈ sampleClass.props.map (fun p => p.name))
      ∧ ((∀ iv ∈ (stripAccessors sampleClass).ivars, trimUnderscore iv.name ≠ "foo")
        ∧ (∀ m ∈ (stripAccessors sampleClass).instanceMethods,
            m.name ≠ "foo" ∧ transformSetter m.name ≠ "foo")) :=
  ⟨by decide, stripAccessors_excludes sampleClass "foo" (by decide)⟩

/-! ## Umbrella naming (claim C6) -/

/-- Claim C6 (amended): for any binary that emitted at least one header, the
umbrella is named `<Module>-Umbrella` exactly when ANY emitted header — class,
protocol, or category — is literally named `<Module>.h`, and `<Module>`
otherwise; the trigger is not restricted to class headers (see the
counterexample). -/
theorem umbrella_name_iff (conf : ModConf) (fnd : FoundationIdx) (scls : List ObjcClass)
    (sprs : List ObjcProtocol) (scats : List ObjcCategory)
    (hne : allBasenames fnd scls sprs scats ≠ []) :
    umbrellaNameSorted conf fnd scls sprs scats = conf.name ++ "-Umbrella"
      ↔ (conf.name ++ ".h") ∈ allBasenames fnd scls sprs scats := by
  unfold umbrellaNameSorted
  by_cases h : (allBasenames fnd scls sprs scats).contains (conf.name ++ ".h") = true
  · rw [if_pos h]
    exact ⟨fun _ => List.elem_iff.mp h, fun _ => rfl⟩
  · rw [if_neg h]
    constructor
    · intro he
      exfalso
      have hlen := congrArg String.length he
      rw [String.length_append] at hlen
      have hnine : ("-Umbrella" : String).length = 9 := by decide
      omega
    · intro hm
      exact absurd (List.elem_iff.mpr hm) h

theorem umbrella_name_iff_witness :
    umbrellaNameSorted sampleConf ⟨[], []⟩ [⟨"Mod", "", [], [], [], [], [], "b"⟩] [] []
      = "Mod" ++ "-Umbrella" :=
  (umbrella_name_iff sampleConf ⟨[], []⟩ [⟨"Mod", "", [], [], [], [], [], "b"⟩] [] []
    (by decide)).mpr (by decide)

/-- Claim C6 counterexample: a category with a nil class pointer named like the
module yields the header `Foo.h`; that alone triggers the `-Umbrella` rename
even though no CLASS header named `Foo.h` was emitted, contradicting the
claim's "exactly when a class header literally named `<Module>.h` was emitted". -/
theorem umbrella_from_category_header :
    umbrellaNameSorted ⟨"out", "Foo", "v", [], ""⟩ ⟨[], []⟩ [] [] [⟨"Foo", none, "b"⟩]
        = "Foo-Umbrella"
      ∧ classBasenames [] = []
      ∧ allBasenames ⟨[], []⟩ [] [] [⟨"Foo", none, "b"⟩] = ["Foo.h"] := by
  refine ⟨by decide, rfl, by decide⟩

/-! ## Determinism (claim C8) -/

theorem insertionSort_eq_of_perm_key {α : Type} (r : α → α → Prop) [DecidableRel r]
    (key : α → String) (hr : ∀ a b, r a b ↔ strLeRel (key a) (key b))
    (l₁ l₂ : List α) (hp : l₁.Perm l₂) (hn : (l₁.map key).Nodup) :
    List.insertionSort r l₁ = List.insertionSort r l₂ := by
  haveI : IsTotal α r := ⟨fun a b => by
    rcases lexLe_total (key a).data (key b).data with h | h
    · exact .inl ((hr a b).mpr h)
    · exact .inr ((hr b a).mpr h)⟩
  haveI : IsTrans α r := ⟨fun a b c hab hbc =>
    (hr a c).mpr (lexLe_trans _ _ _ ((hr a b).mp hab) ((hr b c).mp hbc))⟩
  haveI : IsAntisymm α (fun a b => r a b ∧ key a ≠ key b) :=
    ⟨fun a b hab hba =>
      absurd (strLe_antisymm ((hr a b).mp hab.1) ((hr b a).mp hba.1)) hab.2⟩
  have hn₁ : ((List.insertionSort r l₁).map key).Nodup :=
    (((List.perm_insertionSort r l₁).map key).nodup_iff).mpr hn
  have hn₂ : ((List.insertionSort r l₂).map key).Nodup := by
    refine (((List.perm_insertionSort r l₂).map key).nodup_iff).mpr ?_
    exact ((hp.map key).nodup_iff).mp hn
  have hss₁ : (List.insertionSort r l₁).Pairwise (fun a b => r a b ∧ key a ≠ key b) :=
    (List.sorted_insertionSort r l₁).and (List.pairwise_map.mp hn₁)
  have hss₂ : (List.insertionSort r l₂).Pairwise (fun a b => r a b ∧ key a ≠ key b) :=
    (List.sorted_insertionSort r l₂).and (List.pairwise_map.mp hn₂)
  exact List.eq_of_perm_of_sorted
    (((List.perm_insertionSort r l₁).trans hp).trans (List.perm_insertionSort r l₂).symm)
    hss₁ hss₂

theorem sortClasses_eq_of_perm {l₁ l₂ : List ObjcClass} (hp : l₁.Perm l₂)
    (hn : (l₁.map (fun c => c.name)).Nodup) : sortClasses l₁ = sortClasses l₂ :=
  insertionSort_eq_of_perm_key classNameLe (fun c => c.name) (fun _ _ => Iff.rfl) l₁ l₂ hp hn

theorem sortProtos_eq_of_perm {l₁ l₂ : List ObjcProtocol} (hp : l₁.Perm l₂)
    (hn : (l₁.map (fun p => p.name)).Nodup) : sortProtos l₁ = sortProtos l₂ :=
  insertionSort_eq_of_perm_key protoNameLe (fun p => p.name) (fun _ _ => Iff.rfl) l₁ l₂ hp hn

theorem sortCats_eq_of_perm {l₁ l₂ : List ObjcCategory} (hp : l₁.Perm l₂)
    (hn : (l₁.map (fun k => k.name)).Nodup) : sortCats l₁ = sortCats l₂ :=
  insertionSort_eq_of_perm_key catNameLe (fun k => k.name) (fun _ _ => Iff.rfl) l₁ l₂ hp hn

/-- Claim C8 (amended): for a fixed module configuration and FoundationIndex,
two runs over permuted descriptor lists produce identical write sequences
(hence byte-identical files and the same umbrella include ordering), PROVIDED
no two distinct descriptors of the same kind share a name.  With duplicate
names the claim fails (see the counterexample). -/
theorem writeHeaders_deterministic (conf : ModConf) (fnd : FoundationIdx) (b₁ b₂ : Binary)
    (hpc : b₁.classes.Perm b₂.classes) (hpp : b₁.protos.Perm b₂.protos)
    (hpk : b₁.cats.Perm b₂.cats)
    (hnc : (b₁.classes.map (fun c => c.name)).Nodup)
    (hnp : (b₁.protos.map (fun p => p.name)).Nodup)
    (hnk : (b₁.cats.map (fun k => k.name)).Nodup) :
    writeHeadersModel conf fnd b₁ = writeHeadersModel conf fnd b₂ := by
  unfold writeHeadersModel
  rw [sortClasses_eq_of_perm hpc hnc, sortProtos_eq_of_perm hpp hnp,
    sortCats_eq_of_perm hpk hnk]

theorem writeHeaders_deterministic_witness :
    writeHeadersModel sampleConf ⟨[], []⟩
        ⟨[⟨"A", "", [], [], [], [], [], "x"⟩, ⟨"B", "", [], [], [], [], [], "y"⟩], [], []⟩
      = writeHeadersModel sampleConf ⟨[], []⟩
        ⟨[⟨"B", "", [], [], [], [], [], "y"⟩, ⟨"A", "", [], [], [], [], [], "x"⟩], [], []⟩ :=
  writeHeaders_deterministic sampleConf ⟨[], []⟩ _ _
    (List.Perm.swap _ _ _) (List.Perm.refl _) (List.Perm.refl _)
    (by decide) (by decide) (by decide)

set_option maxRecDepth 100000 in
/-- Claim C8 counterexample: two DISTINCT classes sharing the name `Foo`.  The
stable by-name sort preserves their input order, both runs write `Foo.h`
twice, and the file's final bytes depend on the input order — the runs are not
byte-identical, contradicting the claim's "including lists containing distinct
entities that share a name". -/
theorem same_name_classes_not_deterministic :
    ([fooOne, fooTwo] : List ObjcClass).Perm [fooTwo, fooOne]
      ∧ finalFile (writeHeadersModel sampleConf ⟨[], []⟩ ⟨[fooOne, fooTwo], [], []⟩)
            "out/Mod/Foo.h"
        ≠ finalFile (writeHeadersModel sampleConf ⟨[], []⟩ ⟨[fooTwo, fooOne], [], []⟩)
            "out/Mod/Foo.h" := by
  refine ⟨List.Perm.swap _ _ _, ?_⟩
  decide

/-! ## FoundationIndex construction and error propagation (claim C9) -/

/-- Claim C9: with no shared-cache collaborator, `scanFoundation` yields two
empty name sets and succeeds; with a cache, a failure to load either of the
two fixed reference images (`Foundation` first, then `CoreFoundation`) makes
the entire header-generation run fail with that error. -/
theorem scanFoundation_error_model :
    scanFoundation none = .ok ⟨[], []⟩
      ∧ (∀ (load : String → Except String CacheImage) (e : String) (conf : ModConf)
          (bin : Binary), load "Foundation" = .error e →
            headersRun (some load) conf bin = .error e)
      ∧ (∀ (load : String → Except String CacheImage) (img : CacheImage)
          (cs : List ObjcClass) (ps : List ObjcProtocol) (e : String) (conf : ModConf)
          (bin : Binary), load "Foundation" = .ok img → img.classes = .ok cs →
            img.protos = .ok ps → load "CoreFoundation" = .error e →
              headersRun (some load) conf bin = .error e) := by
  refine ⟨rfl, ?_, ?_⟩
  · intro load e conf bin h
    simp only [headersRun, scanFoundation, h, bind, Except.bind, Except.map]
  · intro load img cs ps e conf bin h1 h2 h3 h4
    simp only [headersRun, scanFoundation, scanImage, h1, h2, h3, h4, sectOrEmpty, bind,
      Except.bind, Except.map, pure, Except.pure]

theorem scanFoundation_error_model_witness :
    scanFoundation none = .ok ⟨[], []⟩
      ∧ headersRun (some failingLoader) sampleConf ⟨[], [], []⟩ = .error "boom" :=
  ⟨scanFoundation_error_model.1,
    scanFoundation_error_model.2.1 failingLoader "boom" sampleConf ⟨[], [], []⟩ rfl⟩

/-! ## Include-guard round trip (claim C7) -/

theorem splitNl_segment : ∀ (a : List Char), '\n' ∉ a → ∀ rest : List Char,
    splitNl (a ++ '\n' :: rest) = a :: splitNl rest := by
  intro a
  induction a with
  | nil =>
    intro _ rest
    simp [splitNl]
  | cons c cs ih =>
    intro hnl rest
    have hc : ¬ c = '\n' := fun h => hnl (h ▸ List.mem_cons_self c cs)
    have hcs : '\n' ∉ cs := fun h => hnl (List.mem_cons_of_mem c h)
    rw [List.cons_append]
    simp only [splitNl, if_neg hc]
    rw [ih hcs rest]

theorem isPrefixOf_false_of_head_ne {a b : Char} (h : (a == b) = false) (as bs : List Char) :
    List.isPrefixOf (a :: as) (b :: bs) = false := by
  simp [List.isPrefixOf, h]

theorem isPrefixOf_false_of_second_ne {a b c : Char} (h : (b == c) = false)
    (as bs : List Char) :
    List.isPrefixOf (a :: b :: as) (a :: c :: bs) = false := by
  simp [List.isPrefixOf, h]

theorem isPrefixOf_append_self : ∀ (p t : List Char), List.isPrefixOf p (p ++ t) = true := by
  intro p
  induction p with
  | nil =>
    intro t
    cases t <;> rfl
  | cons c cs ih =>
    intro t
    simp [List.isPrefixOf, ih]

theorem lineValue_skip (marker : List Char) (pre lines : List (List Char))
    (h : ∀ l ∈ pre, marker.isPrefixOf l = false) :
    lineValue marker (pre ++ lines) = lineValue marker lines := by
  unfold lineValue
  rw [List.find?_append, List.find?_eq_none.mpr (fun x hx => by rw [h x hx]; simp)]
  rfl

theorem lineValue_cons_pos (marker l : List Char) (lines : List (List Char))
    (hp : marker.isPrefixOf l = true) :
    lineValue marker (l :: lines) = some (l.drop marker.length) := by
  unfold lineValue
  rw [List.find?_cons_of_pos _ hp]

theorem lineValue_cons_neg (marker l : List Char) (lines : List (List Char))
    (hp : marker.isPrefixOf l = false) :
    lineValue marker (l :: lines) = lineValue marker lines := by
  unfold lineValue
  rw [List.find?_cons_of_neg _ (by rw [hp]; simp)]

theorem marker_skips_slash_line (marker : List Char) (hm : marker.head? = some '#')
    (l : List Char) (hl : l.head? = some '/') : marker.isPrefixOf l = false := by
  cases marker with
  | nil => simp at hm
  | cons m ms =>
    cases l with
    | nil => simp at hl
    | cons c cs =>
      simp only [List.head?_cons, Option.some.injEq] at hm hl
      subst hm
      subst hl
      exact isPrefixOf_false_of_head_ne (by decide) ms cs

theorem bvBlock_lines (bvs : List String) (h2 : ∀ b ∈ bvs, noNl b) (rest : List Char) :
    ∃ pre : List (List Char),
      splitNl (("//    - LC_BUILD_VERSION:  "
            ++ strJoin "\n//    - LC_BUILD_VERSION:  " bvs).data ++ '\n' :: rest)
          = pre ++ splitNl rest
        ∧ ∀ l ∈ pre, l.head? = some '/' := by
  induction bvs with
  | nil =>
    refine ⟨["//    - LC_BUILD_VERSION:  ".data], ?_, ?_⟩
    · have hd : ("//    - LC_BUILD_VERSION:  "
          ++ strJoin "\n//    - LC_BUILD_VERSION:  " []).data
            = "//    - LC_BUILD_VERSION:  ".data := by
        simp [strJoin, String.data_append]
      rw [hd, splitNl_segment _ (by decide) rest]
      rfl
    · intro l hl
      rw [List.mem_singleton.mp hl]
      rfl
  | cons b bs ih =>
    cases bs with
    | nil =>
      refine ⟨[("//    - LC_BUILD_VERSION:  " ++ b).data], ?_, ?_⟩
      · have hd : ("//    - LC_BUILD_VERSION:  "
            ++ strJoin "\n//    - LC_BUILD_VERSION:  " [b]).data
              = ("//    - LC_BUILD_VERSION:  " ++ b).data := by
          simp [strJoin]
        have hnb : '\n' ∉ ("//    - LC_BUILD_VERSION:  " ++ b).data := by
          rw [String.data_append]
          intro hmem
          rcases List.mem_append.mp hmem with hx | hx
          · exact absurd hx (by decide)
          · exact h2 b (List.mem_cons_self b []) hx
        rw [hd, splitNl_segment _ hnb rest]
        rfl
      · intro l hl
        rw [List.mem_singleton.mp hl]
        rfl
    | cons b2 bs2 =>
      obtain ⟨pre, hpre, hslash⟩ := ih (fun x hx => h2 x (List.mem_cons_of_mem b hx))
      refine ⟨("//    - LC_BUILD_VERSION:  " ++ b).data :: pre, ?_, ?_⟩
      · have hsep : ("\n//    - LC_BUILD_VERSION:  " : String).data
            = '\n' :: ("//    - LC_BUILD_VERSION:  " : String).data := rfl
        have hd : ("//    - LC_BUILD_VERSION:  "
              ++ strJoin "\n//    - LC_BUILD_VERSION:  " (b :: b2 :: bs2)).data ++ '\n' :: rest
            = ("//    - LC_BUILD_VERSION:  " ++ b).data
              ++ '\n' :: (("//    - LC_BUILD_VERSION:  "
                  ++ strJoin "\n//    - LC_BUILD_VERSION:  " (b2 :: bs2)).data
                ++ '\n' :: rest) := by
          simp only [strJoin, String.data_append, hsep, List.append_assoc, List.cons_append,
            List.nil_append]
        have hnb : '\n' ∉ ("//    - LC_BUILD_VERSION:  " ++ b).data := by
          rw [String.data_append]
          intro hmem
          rcases List.mem_append.mp hmem with hx | hx
          · exact absurd hx (by decide)
          · exact h2 b (List.mem_cons_self b _) hx
        rw [hd, splitNl_segment _ hnb, hpre]
        rfl
      · intro l hl
        rcases List.mem_cons.mp hl with hx | hx
        · rw [hx]
          rfl
        · exact hslash l hx

theorem commentBlock_lines (ipsw : String) (bvs : List String) (sv : String)
    (h1 : noNl ipsw) (h2 : ∀ b ∈ bvs, noNl b) (h3 : noNl sv) (rest : List Char) :
    ∃ pre : List (List Char),
      splitNl ((commentBlock ipsw bvs sv).data ++ rest) = pre ++ splitNl rest
        ∧ ∀ l ∈ pre, l.head? = some '/' := by
  obtain ⟨bpre, hbpre, hbslash⟩ := bvBlock_lines bvs h2
    (("//    - LC_SOURCE_VERSION: " ++ sv).data ++ '\n' :: ("//".data ++ '\n' :: rest))
  refine ⟨"//".data
      :: ("//   Generated by https://github.com/blacktop/ipsw (" ++ ipsw ++ ")").data
      :: "//".data
      :: (bpre ++ [("//    - LC_SOURCE_VERSION: " ++ sv).data, "//".data]), ?_, ?_⟩
  · have hA : ("//\n//   Generated by https://github.com/blacktop/ipsw (" : String).data
        = "//".data
          ++ '\n' :: ("//   Generated by https://github.com/blacktop/ipsw (" : String).data :=
      rfl
    have hB : (")\n//\n//    - LC_BUILD_VERSION:  " : String).data
        = ")".data ++ '\n' :: ("//".data
          ++ '\n' :: ("//    - LC_BUILD_VERSION:  " : String).data) := rfl
    have hC : ("\n//    - LC_SOURCE_VERSION: " : String).data
        = '\n' :: ("//    - LC_SOURCE_VERSION: " : String).data := rfl
    have hD : ("\n//\n" : String).data = '\n' :: ("//".data ++ '\n' :: ([] : List Char)) := rfl
    have hdec : (commentBlock ipsw bvs sv).data ++ rest
        = "//".data
          ++ '\n' :: (("//   Generated by https://github.com/blacktop/ipsw ("
                ++ ipsw ++ ")").data
            ++ '\n' :: ("//".data
              ++ '\n' :: (("//    - LC_BUILD_VERSION:  "
                    ++ strJoin "\n//    - LC_BUILD_VERSION:  " bvs).data
                ++ '\n' :: (("//    - LC_SOURCE_VERSION: " ++ sv).data
                  ++ '\n' :: ("//".data ++ '\n' :: rest))))) := by
      simp only [commentBlock, String.data_append, hA, hB, hC, hD, List.append_assoc,
        List.cons_append, List.nil_append]
    have hn2 : '\n' ∉ ("//   Generated by https://github.com/blacktop/ipsw ("
        ++ ipsw ++ ")").data := by
      rw [String.data_append, String.data_append]
      intro hmem
      rcases List.mem_append.mp hmem with hx | hx
      · rcases List.mem_append.mp hx with hy | hy
        · exact absurd hy (by decide)
        · exact h1 hy
      · exact absurd hx (by decide)
    have hn5 : '\n' ∉ ("//    - LC_SOURCE_VERSION: " ++ sv).data := by
      rw [String.data_append]
      intro hmem
      rcases List.mem_append.mp hmem with hx | hx
      · exact absurd hx (by decide)
      · exact h3 hx
    rw [hdec, splitNl_segment "//".data (by decide), splitNl_segment _ hn2,
      splitNl_segment "//".data (by decide), hbpre, splitNl_segment _ hn5,
      splitNl_segment "//".data (by decide)]
    simp [List.append_assoc, List.cons_append]
  · intro l hl
    rcases List.mem_cons.mp hl with hx | hl2
    · rw [hx]; rfl
    rcases List.mem_cons.mp hl2 with hx | hl3
    · rw [hx]; rfl
    rcases List.mem_cons.mp hl3 with hx | hl4
    · rw [hx]; rfl
    rcases List.mem_append.mp hl4 with hx | hx
    · exact hbslash l hx
    rcases List.mem_cons.mp hx with hy | hy
    · rw [hy]; rfl
    · rw [List.mem_singleton.mp hy]; rfl

/-- Claim C7 (amended): for every header written by `writeHeader` whose
version strings and guard name are newline-free, parsing the guard back out of
the `#ifndef`/`#define` lines yields exactly `Name ++ "_h"` for the `Name`
stored in the header info.  The pipeline stores the entity name UNCHANGED for
entity headers and replaces `-` by `_` only for the umbrella header, so the
claimed dash-replacement round trip holds only for the umbrella (or for names
without a dash); see the counterexample. -/
theorem parseGuard_renderHeader (h : HInfo) (h1 : noNl h.ipswVersion)
    (h2 : ∀ b ∈ h.buildVersions, noNl b) (h3 : noNl h.sourceVersion) (h4 : noNl h.name) :
    parseGuard (renderHeader h) = some (h.name ++ "_h") := by
  obtain ⟨pre, hpre, hslash⟩ := commentBlock_lines h.ipswVersion h.buildVersions
    h.sourceVersion h1 h2 h3
    (("#ifndef " ++ h.name ++ "_h").data ++ '\n' :: (("#define " ++ h.name ++ "_h").data
      ++ '\n' :: ((if h.isUmbrella then "" else "@import Foundation;\n") ++ "\n"
        ++ localLines h.imps.Locals ++ fwdLines h.imps ++ h.object ++ "\n"
        ++ "#endif /* " ++ h.name ++ "_h */\n").data))
  have hG1 : ("_h\n#define " : String).data
      = "_h".data ++ '\n' :: ("#define " : String).data := rfl
  have hG2 : ("_h\n" : String).data = "_h".data ++ '\n' :: ([] : List Char) := rfl
  have hdec : (renderHeader h).data
      = (commentBlock h.ipswVersion h.buildVersions h.sourceVersion).data
        ++ (("#ifndef " ++ h.name ++ "_h").data ++ '\n' :: (("#define " ++ h.name ++ "_h").data
          ++ '\n' :: ((if h.isUmbrella then "" else "@import Foundation;\n") ++ "\n"
            ++ localLines h.imps.Locals ++ fwdLines h.imps ++ h.object ++ "\n"
            ++ "#endif /* " ++ h.name ++ "_h */\n").data)) := by
    simp only [renderHeader, String.data_append, hG1, hG2, List.append_assoc,
      List.cons_append, List.nil_append]
  have hthis : ("#ifndef " ++ h.name ++ "_h").data
      = ("#ifndef " : String).data ++ (h.name.data ++ ("_h" : String).data) := by
    simp [String.data_append]
  have hthat : ("#define " ++ h.name ++ "_h").data
      = ("#define " : String).data ++ (h.name.data ++ ("_h" : String).data) := by
    simp [String.data_append]
  have hnif : '\n' ∉ ("#ifndef " ++ h.name ++ "_h").data := by
    rw [hthis]
    intro hmem
    rcases List.mem_append.mp hmem with hx | hx
    · exact absurd hx (by decide)
    rcases List.mem_append.mp hx with hy | hy
    · exact h4 hy
    · exact absurd hy (by decide)
  have hndef : '\n' ∉ ("#define " ++ h.name ++ "_h").data := by
    rw [hthat]
    intro hmem
    rcases List.mem_append.mp hmem with hx | hx
    · exact absurd hx (by decide)
    rcases List.mem_append.mp hx with hy | hy
    · exact h4 hy
    · exact absurd hy (by decide)
  have hifpos : ("#ifndef " : String).data.isPrefixOf
      (("#ifndef " ++ h.name ++ "_h").data) = true := by
    rw [hthis]
    exact isPrefixOf_append_self _ _
  have hdefpos : ("#define " : String).data.isPrefixOf
      (("#define " ++ h.name ++ "_h").data) = true := by
    rw [hthat]
    exact isPrefixOf_append_self _ _
  have hdefneg : ("#define " : String).data.isPrefixOf
      (("#ifndef " ++ h.name ++ "_h").data) = false := by
    rw [hthis]
    have e1 : ("#ifndef " : String).data ++ (h.name.data ++ ("_h" : String).data)
        = '#' :: 'i' :: (("fndef " : String).data ++ (h.name.data ++ ("_h" : String).data)) :=
      rfl
    have e2 : ("#define " : String).data = '#' :: 'd' :: ("efine " : String).data := rfl
    rw [e1, e2]
    exact isPrefixOf_false_of_second_ne (by decide) _ _
  unfold parseGuard
  rw [hdec, hpre, splitNl_segment _ hnif, splitNl_segment _ hndef]
  rw [lineValue_skip ("#ifndef " : String).data pre _
      (fun l hl => marker_skips_slash_line ("#ifndef " : String).data rfl l (hslash l hl)),
    lineValue_cons_pos _ _ _ hifpos,
    lineValue_skip ("#define " : String).data pre _
      (fun l hl => marker_skips_slash_line ("#define " : String).data rfl l (hslash l hl)),
    lineValue_cons_neg _ _ _ hdefneg,
    lineValue_cons_pos _ _ _ hdefpos]
  rw [hthis, hthat, List.drop_left, List.drop_left]
  show (if (h.name.data ++ ("_h" : String).data) = (h.name.data ++ ("_h" : String).data)
      then some (String.mk (h.name.data ++ ("_h" : String).data)) else none)
    = some (h.name ++ "_h")
  rw [if_pos rfl]
  rfl

theorem parseGuard_renderHeader_witness :
    parseGuard (renderHeader ⟨"1.0", ["b1", "b2"], "sv", false, "Name", emptyImports, "obj"⟩)
      = some ("Name" ++ "_h") :=
  parseGuard_renderHeader ⟨"1.0", ["b1", "b2"], "sv", false, "Name", emptyImports, "obj"⟩
    (by decide) (by decide) (by decide) (by decide)

set_option maxRecDepth 100000 in
/-- Claim C7 is false as stated for entity headers: a category named `A-B`
written by the pipeline gets the guard `A-B_h` — the entity name is NOT
dash-replaced — while the umbrella header of the same run gets `Mod_h`.
Parsing the guards back out of the two generated files shows the entity guard
differs from the claimed `replaceDash name ++ "_h"`. -/
theorem entity_guard_keeps_dash :
    (writeHeadersModel sampleConf ⟨[], []⟩ ⟨[], [], [⟨"A-B", none, "body"⟩]⟩).map
        (fun w => parseGuard w.2)
      = [some "A-B_h", some "Mod_h"]
      ∧ ("A-B_h" : String) ≠ replaceDash "A-B" ++ "_h" := by
  constructor
  · decide
  · decide
